import Mathlib

/-!
Verification development for the `caresse-wedding` repository
(`src/CaresseInvite.tsx` and its unnamed near-duplicate variant).

The repository is a client-side React page.  Its logic core consists of:
* `smartUrlSizing` / `withMarriottSizing` — query-parameter rewriting of
  image URLs on the `cache.marriott.com` host;
* `expandSources` — an ordered, deduplicated fallback list of size
  variants ending with the primary URL;
* `photoKeyFromUrl` — a dedup key derived from a URL's host and path;
* the photo-catalog dedup loop (`photos` memo);
* the `SmartImage` load-failure cursor;
* the gallery / lightbox state (visibleCount, lightboxIndex, prev/next);
* the `wedding_lang` localStorage effects.

JavaScript strings are modelled as `List Char` (`JSString`).  The WHATWG
`URL` platform API (external to the repository) is modelled by a
simplified parser faithful on the URL shapes the page uses:
`scheme://host/path?query`, splitting the authority at the first `/` or
`?`, the path at the first `?`, and the query at `&`/`=`.  Model
simplifications of that external API (none of which any verified claim
depends on): the host is kept verbatim (the real parser canonicalises
and lower-cases it; every URL in the repository is already lower-case),
query components are not percent-(re)encoded, fragments are not split
off, and `decodeURIComponent` is modelled as total ASCII `%XX` decoding.
-/

/-- JavaScript strings, modelled as lists of characters. -/
abbrev JSString := List Char

/-- Coerce a Lean string literal into the JS-string model. -/
def js (s : String) : JSString := s.data

/-- `startsWith s pre`: `s` begins with `pre` (character-wise). -/
def startsWith : JSString → JSString → Bool
  | _, [] => true
  | [], _ :: _ => false
  | c :: cs, d :: ds => c = d && startsWith cs ds

/-- JS `String.prototype.includes`: substring containment. -/
def hasSub (s sub : JSString) : Bool :=
  startsWith s sub ||
    match s with
    | [] => false
    | _ :: cs => hasSub cs sub

/-- Worker for `splitOnStr`: split at each leftmost occurrence of the
non-empty separator `sep`.  Structural recursion on a fuel counter so
that the kernel can evaluate it; with fuel at least the length of the
string (as `splitOnStr` supplies) every step shortens the string, so the
zero-fuel branch is never reached. -/
def splitAux (sep : JSString) : Nat → JSString → List JSString
  | _, [] => [[]]
  | 0, s => [s]
  | fuel + 1, c :: cs =>
    if startsWith (c :: cs) sep ∧ sep ≠ [] then
      [] :: splitAux sep fuel ((c :: cs).drop sep.length)
    else
      match splitAux sep fuel cs with
      | [] => [[c]]
      | x :: xs => (c :: x) :: xs

/-- JS `String.prototype.split` with a string separator. -/
def splitOnStr (sep s : JSString) : List JSString :=
  if sep = [] then s.map (fun c => [c]) else splitAux sep s.length s

/-- Value of a hexadecimal digit, if any. -/
def hexDigitVal (c : Char) : Option Nat :=
  if '0' ≤ c ∧ c ≤ '9' then some (c.toNat - '0'.toNat)
  else if 'a' ≤ c ∧ c ≤ 'f' then some (c.toNat - 'a'.toNat + 10)
  else if 'A' ≤ c ∧ c ≤ 'F' then some (c.toNat - 'A'.toNat + 10)
  else none

/-- Model of `decodeURIComponent` (external platform API): decode ASCII
`%XX` escapes, leave everything else unchanged. -/
def percentDecode : JSString → JSString
  | [] => []
  | '%' :: a :: b :: rest =>
    match hexDigitVal a, hexDigitVal b with
    | some ha, some hb => Char.ofNat (16 * ha + hb) :: percentDecode rest
    | _, _ => '%' :: percentDecode (a :: b :: rest)
  | c :: rest => c :: percentDecode rest

/-- ASCII lower-casing of one character (JS `toLowerCase` restricted to
ASCII, which covers every string the page manipulates). -/
def lowerChar (c : Char) : Char :=
  if 'A' ≤ c ∧ c ≤ 'Z' then Char.ofNat (c.toNat + 32) else c

/-- JS `String.prototype.toLowerCase` (ASCII model). -/
def lowerStr (s : JSString) : JSString := s.map lowerChar

/-- Model of a parsed WHATWG `URL` object: the components the page
reads (`hostname`, `pathname`, `searchParams`). -/
structure URLModel where
  scheme : JSString
  host : JSString
  pathname : JSString
  params : List (JSString × JSString)
deriving DecidableEq

/-- Split at the first occurrence of `"://"`, if any. -/
def breakScheme : JSString → Option (JSString × JSString)
  | [] => none
  | c :: cs =>
    if c = ':' ∧ cs.take 2 = ['/', '/'] then some ([], cs.drop 2)
    else (breakScheme cs).map (fun p => (c :: p.1, p.2))

/-- Split the authority from the rest: the host runs up to the first
`/` or `?`. -/
def breakHost : JSString → JSString × JSString
  | [] => ([], [])
  | c :: cs =>
    if c = '/' ∨ c = '?' then ([], c :: cs)
    else
      let p := breakHost cs
      (c :: p.1, p.2)

/-- Split the path from the query at the first `?`, if any. -/
def breakQuery : JSString → JSString × Option JSString
  | [] => ([], none)
  | c :: cs =>
    if c = '?' then ([], some cs)
    else
      let p := breakQuery cs
      (c :: p.1, p.2)

/-- Split one `key=value` query piece at the first `=`. -/
def breakAtEq : JSString → JSString × JSString
  | [] => ([], [])
  | c :: cs =>
    if c = '=' then ([], cs)
    else
      let p := breakAtEq cs
      (c :: p.1, p.2)

/-- Parse a query string into an ordered parameter list (pieces split at
`&`, empty pieces skipped, each piece split at its first `=`). -/
def parseParams (q : JSString) : List (JSString × JSString) :=
  (splitOnStr ['&'] q).filterMap
    (fun piece => if piece = [] then none else some (breakAtEq piece))

/-- Model of `new URL(s)`: `some` on success, `none` where the real
constructor throws (no `://`, or empty host). -/
def URLModel.parse (s : JSString) : Option URLModel :=
  match breakScheme s with
  | none => none
  | some (sch, rest) =>
    let hp := breakHost rest
    if hp.1 = [] then none
    else
      match hp.2 with
      | [] => some ⟨sch, hp.1, ['/'], []⟩
      | c :: t =>
        if c = '?' then some ⟨sch, hp.1, ['/'], parseParams t⟩
        else
          let pq := breakQuery (c :: t)
          some ⟨sch, hp.1, pq.1, (pq.2.map parseParams).getD []⟩

/-- Serialise an ordered parameter list (`?k=v&k=v…`, empty for no
parameters). -/
def printParams : List (JSString × JSString) → JSString
  | [] => []
  | ps => '?' :: List.intercalate ['&'] (ps.map (fun p => p.1 ++ '=' :: p.2))

/-- Model of `URL.prototype.toString`. -/
def URLModel.toStr (u : URLModel) : JSString :=
  u.scheme ++ ':' :: '/' :: '/' :: u.host ++ u.pathname ++ printParams u.params

/-- Model of `URLSearchParams.prototype.set`: replace the value of the
first matching key and drop later duplicates, else append. -/
def setParam : List (JSString × JSString) → JSString → JSString → List (JSString × JSString)
  | [], k, v => [(k, v)]
  | (k', v') :: rest, k, v =>
    if k' = k then (k, v) :: rest.filter (fun p => !(p.1 == k))
    else (k', v') :: setParam rest k v

/-! ## The repository's URL utilities (`src/CaresseInvite.tsx`) -/

/-- The descending width ladder used by the named variant's
`expandSources`. -/
def sizingWidths : List Nat := [2200, 1800, 1400, 1100, 900]

/-- `smartUrlSizing` from `src/CaresseInvite.tsx` (lines 60–82): rewrite
`wid`/`fit` on `/is/image/` paths and `downsize`/`output-quality`/
`interpolation` on `/content/dam/marriott-renditions/` paths of the
`cache.marriott.com` host; return the input unchanged otherwise or when
parsing throws. -/
def smartUrlSizing (url : JSString) (wid : Nat) : JSString :=
  match URLModel.parse url with
  | none => url
  | some u =>
    if !(hasSub u.host (js "cache.marriott.com")) then url
    else if hasSub u.pathname (js "/is/image/") then
      URLModel.toStr
        { u with
            params := setParam (setParam u.params (js "wid") (js (toString wid)))
              (js "fit") (js "constrain") }
    else if hasSub u.pathname (js "/content/dam/marriott-renditions/") then
      URLModel.toStr
        { u with
            params :=
              setParam
                (setParam
                  (setParam u.params (js "downsize") (js (toString wid) ++ js "px:*"))
                  (js "output-quality") (js "86"))
                (js "interpolation") (js "progressive-bilinear") }
    else url

/-- The JS-`Set` push of `expandSources`: `const push = (u) => u && s.add(u)`
— skip falsy (empty) strings and already-present members, else append. -/
def pushDedup (acc : List JSString) (u : JSString) : List JSString :=
  if u = [] ∨ u ∈ acc then acc else acc ++ [u]

/-- `expandSources` from `src/CaresseInvite.tsx` (lines 84–94): size
variants at widths 2200, 1800, 1400, 1100, 900, then the primary URL,
collected into an insertion-ordered deduplicated list. -/
def expandSources (primary : JSString) : List JSString :=
  pushDedup
    (pushDedup
      (pushDedup
        (pushDedup
          (pushDedup
            (pushDedup [] (smartUrlSizing primary 2200))
            (smartUrlSizing primary 1800))
          (smartUrlSizing primary 1400))
        (smartUrlSizing primary 1100))
      (smartUrlSizing primary 900))
    primary

/-- `photoKeyFromUrl` from `src/CaresseInvite.tsx` (lines 96–113). -/
def photoKeyFromUrl (url : JSString) : JSString :=
  match URLModel.parse url with
  | none => lowerStr ((splitOnStr ['?'] url).headD url)
  | some u =>
    let path := lowerStr (percentDecode u.pathname)
    if hasSub path (js "/is/image/") then
      let file := ((splitOnStr (js "/is/image/") path).drop 1).headD path
      let tail := (splitOnStr ['/'] file).getLastD file
      (splitOnStr ['?'] ((splitOnStr [':'] tail).headD tail)).headD tail
    else if hasSub path (js "/content/dam/") then
      let tail := (splitOnStr ['/'] path).getLastD path
      (splitOnStr ['?'] tail).headD tail
    else u.host ++ path

/-- `withMarriottSizing` from the unnamed variant (`src/unnamed/part_000`,
lines 58–76): the same rewrite with the host test folded into each
branch condition. -/
def withMarriottSizing (url : JSString) (wid : Nat) : JSString :=
  match URLModel.parse url with
  | none => url
  | some u =>
    if hasSub u.host (js "cache.marriott.com") && hasSub u.pathname (js "/is/image/") then
      URLModel.toStr
        { u with
            params := setParam (setParam u.params (js "wid") (js (toString wid)))
              (js "fit") (js "constrain") }
    else if hasSub u.host (js "cache.marriott.com") &&
        hasSub u.pathname (js "/content/dam/marriott-renditions/") then
      URLModel.toStr
        { u with
            params :=
              setParam
                (setParam
                  (setParam u.params (js "downsize") (js (toString wid) ++ js "px:*"))
                  (js "output-quality") (js "86"))
                (js "interpolation") (js "progressive-bilinear") }
    else url

/-! ## The photo catalog (`photos` memo, lines 613–630) -/

/-- One entry of the static `raw` record list. -/
structure PhotoRecord where
  id : JSString
  title : JSString
  tag : Option JSString
  primary : JSString
deriving DecidableEq

/-- A derived `Photo` (`{id, title, tag, sources}`). -/
structure Photo where
  id : JSString
  title : JSString
  tag : Option JSString
  sources : List JSString
deriving DecidableEq

/-- The `raw.map(...)` step building a `Photo` from a record. -/
def buildPhoto (r : PhotoRecord) : Photo :=
  ⟨r.id, r.title, r.tag, expandSources r.primary⟩

/-- The dedup key of a built photo: `photoKeyFromUrl(p.sources[0] ?? p.id)`. -/
def keyOfPhoto (p : Photo) : JSString :=
  photoKeyFromUrl (p.sources.headD p.id)

/-- The seen-keys dedup loop of the `photos` memo: skip a photo whose key
is empty or already seen, else keep it and remember its key. -/
def dedupPhotos (seen : List JSString) : List Photo → List Photo
  | [] => []
  | p :: rest =>
    if keyOfPhoto p = [] ∨ keyOfPhoto p ∈ seen then dedupPhotos seen rest
    else p :: dedupPhotos (keyOfPhoto p :: seen) rest

/-- The whole `photos` memo: build each record, then dedup in order. -/
def photosFn (rs : List PhotoRecord) : List Photo :=
  dedupPhotos [] (rs.map buildPhoto)

/-- The static `raw` record list of `src/CaresseInvite.tsx`
(lines 534–609): id, title, tag and canonical (`primary`) URL of each
gallery photo. -/
def rawRecords : List PhotoRecord := [
  ⟨js "drone-bay-1", js "The private bay: Caresse from above", some (js "Aerial • Bay"),
    js "https://cache.marriott.com/is/image/marriotts7prod/lc-bjvlc-drone-view-23060%3AWide-Hor"⟩,
  ⟨js "drone-resort-2", js "Aegean shoreline panorama", some (js "Aerial • Panorama"),
    js "https://cache.marriott.com/is/image/marriotts7prod/lc-bjvlc-drone-view-37065%3AWide-Hor"⟩,
  ⟨js "hotel-exterior", js "Resort exterior", some (js "Resort"),
    js "https://cache.marriott.com/is/image/marriotts7prod/lc-bjvlc-hotel-exterior-11389%3AWide-Hor"⟩,
  ⟨js "beach-hero", js "Turquoise beach day", some (js "Beach"),
    js "https://cache.marriott.com/content/dam/marriott-renditions/BJVLC/bjvlc-caresse-beach-6997-hor-wide.jpg"⟩,
  ⟨js "private-beach", js "Private beach & teak decks", some (js "Beach • Deck"),
    js "https://cache.marriott.com/content/dam/marriott-renditions/BJVLC/bjvlc-private-beach-9546-hor-wide.jpg"⟩,
  ⟨js "cabanas", js "Cabanas & daybeds", some (js "Beach • Cabanas"),
    js "https://cache.marriott.com/content/dam/marriott-renditions/BJVLC/bjvlc-cabanas-9527-hor-wide.jpg"⟩,
  ⟨js "pool-main", js "Infinity pool above the shoreline", some (js "Pool"),
    js "https://cache.marriott.com/content/dam/marriott-renditions/BJVLC/bjvlc-pool-9526-hor-wide.jpg"⟩,
  ⟨js "sunset-lounge", js "Sunset Lounge", some (js "Sunset"),
    js "https://cache.marriott.com/content/dam/marriott-renditions/BJVLC/bjvlc-sunset-lounge-9529-hor-wide.jpg"⟩,
  ⟨js "glass-restaurant", js "Glass Restaurant terrace", some (js "Dining"),
    js "https://cache.marriott.com/content/dam/marriott-renditions/BJVLC/bjvlc-glass-restaurant-9570-hor-wide.jpg"⟩,
  ⟨js "buddha-bar", js "Buddha-Bar Beach Bodrum", some (js "Beach Club"),
    js "https://cache.marriott.com/content/dam/marriott-renditions/BJVLC/bjvlc-buddha-restaurant-1797-hor-wide.jpg"⟩,
  ⟨js "spa", js "Spa Caresse", some (js "Wellness"),
    js "https://cache.marriott.com/content/dam/marriott-renditions/BJVLC/bjvlc-spa-caresse-9616-hor-wide.jpg"⟩,
  ⟨js "indoor-pool", js "Indoor pool", some (js "Wellness"),
    js "https://cache.marriott.com/is/image/marriotts7prod/bjvlc-indoor-pool-9613%3AWide-Hor"⟩]

/-- The page's built photo catalog: `photos` applied to the static data. -/
def theCatalog : List Photo := photosFn rawRecords

/-! ## `SmartImage` (lines 115–141): the load-failure cursor -/

/-- The `onError` handler of `SmartImage`:
`setI((v) => (v + 1 <= sources.length ? v + 1 : v))`. -/
def smartImageOnError (sources : List JSString) (v : Nat) : Nat :=
  if v + 1 ≤ sources.length then v + 1 else v

/-! ## Gallery & lightbox state (lines 632–643, 877–887) -/

/-- `next`: `(i + 1) % visiblePhotos.length` (lines 642–643).  JS `%` on
the non-negative values reached here agrees with `Int.emod`. -/
def nextIdx (n i : Int) : Int := (i + 1) % n

/-- `prev`: `(i - 1 + visiblePhotos.length) % visiblePhotos.length`
(lines 640–641). -/
def prevIdx (n i : Int) : Int := (i - 1 + n) % n

/-- The gallery's client state: `visibleCount` and the open lightbox
index (`lightboxIndex : number | null`). -/
structure GalleryState where
  visibleCount : Nat
  lightbox : Option Int
deriving DecidableEq

/-- Length of the rendered slice:
`visiblePhotos = photos.slice(0, Math.min(visibleCount, photos.length))`
(line 633). -/
def visibleLen (catLen vc : Nat) : Nat := min vc catLen

/-- The UI transitions of the gallery, for a catalog of length `catLen`:
* `loadMore` — the button is rendered only while
  `visibleCount < photos.length` and sets
  `visibleCount := Math.min(visibleCount + 12, photos.length)` (lines 877–881);
* `openLB` — a rendered thumbnail at position `i` of the visible slice
  sets `lightboxIndex := i` (gallery grid, line 850, and the featured
  strip, line 765, whose indices `i + 2` also lie in the slice);
* `closeLB` — sets `lightboxIndex := null` (line 639);
* `prevLB` / `nextLB` — cyclic steps on an open lightbox (lines 640–643). -/
inductive GalleryStep (catLen : Nat) : GalleryState → GalleryState → Prop
  | loadMore {vc lb} : vc < catLen →
      GalleryStep catLen ⟨vc, lb⟩ ⟨min (vc + 12) catLen, lb⟩
  | openLB {vc lb} (i : Nat) : i < visibleLen catLen vc →
      GalleryStep catLen ⟨vc, lb⟩ ⟨vc, some (i : Int)⟩
  | closeLB {vc lb} : GalleryStep catLen ⟨vc, lb⟩ ⟨vc, none⟩
  | prevLB {vc i} :
      GalleryStep catLen ⟨vc, some i⟩ ⟨vc, some (prevIdx (visibleLen catLen vc) i)⟩
  | nextLB {vc i} :
      GalleryStep catLen ⟨vc, some i⟩ ⟨vc, some (nextIdx (visibleLen catLen vc) i)⟩

/-- Gallery states reachable from the initial state
(`useState(12)`, `useState<number | null>(null)`). -/
inductive GalleryReachable (catLen : Nat) : GalleryState → Prop
  | init : GalleryReachable catLen ⟨12, none⟩
  | step {s s'} : GalleryReachable catLen s → GalleryStep catLen s s' →
      GalleryReachable catLen s'

/-! ## Language preference (lines 350–368) -/

/-- The two page languages. -/
inductive Lang
  | en
  | fa
deriving DecidableEq

/-- The string stored for a language. -/
def langCode : Lang → JSString
  | .en => js "en"
  | .fa => js "fa"

/-- The fixed storage key. -/
def weddingLangKey : JSString := js "wedding_lang"

/-- The external localStorage capability: a key-value table plus a flag
for environments (e.g. privacy mode) where any access throws. -/
structure StorageState where
  entries : List (JSString × JSString)
  broken : Bool
deriving DecidableEq

/-- `localStorage.getItem`: the stored value, `none` when absent,
`Except.error` when storage throws. -/
def getItem (st : StorageState) (k : JSString) : Except Unit (Option JSString) :=
  if st.broken then .error () else .ok (st.entries.lookup k)

/-- `localStorage.setItem`: an updated table, or `Except.error` when
storage throws. -/
def setItem (st : StorageState) (k v : JSString) : Except Unit StorageState :=
  if st.broken then .error ()
  else .ok ⟨(k, v) :: st.entries.filter (fun p => !(p.1 == k)), st.broken⟩

/-- The mount effect (lines 353–360): start from `"en"`, read
`wedding_lang` once, adopt the stored value only if it is `"fa"` or
`"en"`, and swallow any storage exception. -/
def initLangEffect (st : StorageState) : Lang :=
  match getItem st weddingLangKey with
  | .error _ => .en
  | .ok none => .en
  | .ok (some saved) =>
    if saved = js "fa" ∨ saved = js "en" then
      (if saved = js "fa" then .fa else .en)
    else .en

/-- The write-back effect (lines 362–368): persist the language under
`wedding_lang`; on a storage exception the write is swallowed and both
the table and the in-session language are left unchanged. -/
def persistLangEffect (st : StorageState) (l : Lang) : StorageState × Lang :=
  match setItem st weddingLangKey (langCode l) with
  | .error _ => (st, l)
  | .ok st' => (st', l)

/-! ## Lemmas about the URL model -/

theorem breakScheme_append (l a b : JSString) (h : breakScheme l = some (a, b)) :
    l = a ++ ':' :: '/' :: '/' :: b := by
  induction l generalizing a b with
  | nil => simp [breakScheme] at h
  | cons c cs ih =>
    simp only [breakScheme] at h
    split at h
    · rename_i hc
      obtain ⟨rfl, rfl⟩ : a = [] ∧ b = cs.drop 2 := by
        simpa using h.symm
      obtain ⟨hc1, hc2⟩ := hc
      subst hc1
      cases cs with
      | nil => simp at hc2
      | cons d ds =>
        cases ds with
        | nil => simp at hc2
        | cons e es =>
          simp only [List.take, List.cons.injEq] at hc2
          obtain ⟨rfl, rfl, -⟩ := hc2
          simp
    · cases hbs : breakScheme cs with
      | none => simp [hbs] at h
      | some p =>
        simp only [hbs, Option.map_some', Option.some.injEq] at h
        have hcs := ih p.1 p.2 (by simpa using hbs)
        rw [Prod.ext_iff] at h
        obtain ⟨h1, h2⟩ := h
        subst h1
        subst h2
        simp [hcs]

theorem breakScheme_reassemble (l a b : JSString) (h : breakScheme l = some (a, b))
    (c : JSString) : breakScheme (a ++ ':' :: '/' :: '/' :: c) = some (a, c) := by
  induction l generalizing a b with
  | nil => simp [breakScheme] at h
  | cons x xs ih =>
    simp only [breakScheme] at h
    split at h
    · obtain ⟨rfl, rfl⟩ : a = [] ∧ b = xs.drop 2 := by simpa using h.symm
      simp [breakScheme]
    · rename_i hx
      cases hbs : breakScheme xs with
      | none => simp [hbs] at h
      | some p =>
        simp only [hbs, Option.map_some', Option.some.injEq] at h
        rw [Prod.ext_iff] at h
        obtain ⟨h1, h2⟩ := h
        subst h1
        subst h2
        have hrec := ih p.1 p.2 hbs
        simp only [List.cons_append, breakScheme]
        rw [if_neg]
        · simp only [List.append_eq, hrec, Option.map_some']
        rintro ⟨rfl, htake⟩
        have hxs := breakScheme_append xs p.1 p.2 hbs
        cases hp1 : p.1 with
        | nil => simp [hp1] at htake
        | cons y ys =>
          cases ys with
          | nil => simp [hp1] at htake
          | cons z zs =>
            simp only [hp1, List.cons_append, List.take, List.cons.injEq] at htake
            obtain ⟨rfl, rfl, -⟩ := htake
            exact hx ⟨rfl, by simp [hxs, hp1]⟩

theorem breakHost_append (l : JSString) : l = (breakHost l).1 ++ (breakHost l).2 := by
  induction l with
  | nil => simp [breakHost]
  | cons c cs ih =>
    simp only [breakHost]
    split
    · simp
    · simpa using ih

theorem breakHost_fst_clean (l : JSString) :
    ∀ c ∈ (breakHost l).1, ¬(c = '/' ∨ c = '?') := by
  induction l with
  | nil => simp [breakHost]
  | cons c cs ih =>
    simp only [breakHost]
    split
    · simp
    · rename_i hc
      intro d hd
      simp only [List.mem_cons] at hd
      rcases hd with rfl | hd
      · exact hc
      · exact ih d hd

theorem breakHost_snd_shape (l : JSString) :
    (breakHost l).2 = [] ∨
      ∃ t, (breakHost l).2 = '/' :: t ∨ (breakHost l).2 = '?' :: t := by
  induction l with
  | nil => simp [breakHost]
  | cons c cs ih =>
    simp only [breakHost]
    split
    · rename_i hc
      rcases hc with rfl | rfl
      · exact Or.inr ⟨cs, Or.inl rfl⟩
      · exact Or.inr ⟨cs, Or.inr rfl⟩
    · simpa using ih

theorem breakHost_reassemble (h r : JSString) (hh : ∀ c ∈ h, ¬(c = '/' ∨ c = '?')) :
    breakHost (h ++ '/' :: r) = (h, '/' :: r) := by
  induction h with
  | nil => simp [breakHost]
  | cons c cs ih =>
    simp only [List.cons_append, breakHost]
    rw [if_neg (hh c (by simp))]
    have := ih (fun d hd => hh d (by simp [hd]))
    simp [this]

theorem breakQuery_append (l : JSString) :
    l = (breakQuery l).1 ++
      (match (breakQuery l).2 with | none => [] | some q => '?' :: q) := by
  induction l with
  | nil => simp [breakQuery]
  | cons c cs ih =>
    simp only [breakQuery]
    split
    · rename_i hc
      subst hc
      simp
    · simpa using ih

theorem breakQuery_fst_clean (l : JSString) : ∀ c ∈ (breakQuery l).1, c ≠ '?' := by
  induction l with
  | nil => simp [breakQuery]
  | cons c cs ih =>
    simp only [breakQuery]
    split
    · simp
    · rename_i hc
      intro d hd
      simp only [List.mem_cons] at hd
      rcases hd with rfl | hd
      · exact hc
      · exact ih d hd

theorem breakQuery_reassemble (p q : JSString) (hp : ∀ c ∈ p, c ≠ '?') :
    breakQuery (p ++ '?' :: q) = (p, some q) := by
  induction p with
  | nil => simp [breakQuery]
  | cons c cs ih =>
    simp only [List.cons_append, breakQuery]
    rw [if_neg (hp c (by simp))]
    have := ih (fun d hd => hp d (by simp [hd]))
    simp [this]

theorem parse_shape (s : JSString) (u : URLModel) (h : URLModel.parse s = some u) :
    (∃ rest, breakScheme s = some (u.scheme, rest)) ∧
    u.host ≠ [] ∧ (∀ c ∈ u.host, ¬(c = '/' ∨ c = '?')) ∧
    (∃ t, u.pathname = '/' :: t) ∧ (∀ c ∈ u.pathname, c ≠ '?') := by
  unfold URLModel.parse at h
  cases hbs : breakScheme s with
  | none => rw [hbs] at h; exact absurd h (by simp)
  | some pr =>
    obtain ⟨sch, rest⟩ := pr
    rw [hbs] at h
    simp only at h
    split at h
    · exact absurd h (by simp)
    · rename_i hne
      cases hh : (breakHost rest).2 with
      | nil =>
        rw [hh] at h
        simp only [Option.some.injEq] at h
        subst h
        exact ⟨⟨rest, by simpa using hbs⟩, hne, breakHost_fst_clean rest, ⟨[], rfl⟩, by simp⟩
      | cons c t =>
        rw [hh] at h
        simp only at h
        split at h
        · rename_i hq
          simp only [Option.some.injEq] at h
          subst h
          exact ⟨⟨rest, by simpa using hbs⟩, hne, breakHost_fst_clean rest, ⟨[], rfl⟩,
            by simp⟩
        · rename_i hq
          simp only [Option.some.injEq] at h
          subst h
          have hc : c = '/' := by
            rcases breakHost_snd_shape rest with h0 | ⟨t', ht' | ht'⟩
            · rw [hh] at h0; simp at h0
            · rw [hh] at ht'
              exact (List.cons.injEq _ _ _ _ ▸ ht').1
            · rw [hh] at ht'
              exact absurd (List.cons.injEq _ _ _ _ ▸ ht').1 hq
          refine ⟨⟨rest, by simpa using hbs⟩, hne, breakHost_fst_clean rest, ?_,
            breakQuery_fst_clean _⟩
          subst hc
          simp only [breakQuery]
          rw [if_neg (by decide)]
          exact ⟨_, rfl⟩

theorem printParams_cons (ps : List (JSString × JSString)) (hps : ps ≠ []) :
    ∃ inner, printParams ps = '?' :: inner := by
  cases ps with
  | nil => exact absurd rfl hps
  | cons a as => exact ⟨_, rfl⟩

theorem parse_toStr_params (s : JSString) (u : URLModel) (h : URLModel.parse s = some u)
    (ps : List (JSString × JSString)) (hps : ps ≠ []) :
    ∃ qs, URLModel.parse (URLModel.toStr { u with params := ps }) =
      some ⟨u.scheme, u.host, u.pathname, qs⟩ := by
  obtain ⟨⟨rest, hsch⟩, hhost, hclean, ⟨t, hpath⟩, hnoq⟩ := parse_shape s u h
  obtain ⟨inner, hpp⟩ := printParams_cons ps hps
  refine ⟨parseParams inner, ?_⟩
  have hbs := breakScheme_reassemble s u.scheme rest hsch
    (u.host ++ ('/' :: (t ++ ('?' :: inner))))
  have hbh := breakHost_reassemble u.host (t ++ '?' :: inner) hclean
  have hbq := breakQuery_reassemble ('/' :: t) inner (by rw [← hpath]; exact hnoq)
  unfold URLModel.toStr URLModel.parse
  simp only [hpp, hpath, List.cons_append, List.append_assoc] at hbs hbh hbq ⊢
  rw [hbs]
  simp only [hbh]
  rw [if_neg (by simpa using hhost)]
  simp [hbq, hpath]

theorem setParam_ne_nil (ps : List (JSString × JSString)) (k v : JSString) :
    setParam ps k v ≠ [] := by
  cases ps with
  | nil => simp [setParam]
  | cons p rest =>
    obtain ⟨k', v'⟩ := p
    simp only [setParam]
    split <;> simp

/-- Claim C3.  The dedup key is invariant under the sizing rewrite: for
every URL string and every width, `photoKeyFromUrl (smartUrlSizing url w)`
equals `photoKeyFromUrl url`.  Both functions are total Lean functions
(the code's `try`/`catch` fallbacks are the `none` branches), so the
"never throws" part of the claim holds by construction. -/
theorem C3_photoKey_invariant_under_sizing (url : JSString) (w : Nat) :
    photoKeyFromUrl (smartUrlSizing url w) = photoKeyFromUrl url := by
  cases hp : URLModel.parse url with
  | none => simp [smartUrlSizing, hp]
  | some u =>
    cases hm : hasSub u.host (js "cache.marriott.com") with
    | false => simp [smartUrlSizing, hp, hm]
    | true =>
      cases hi : hasSub u.pathname (js "/is/image/") with
      | true =>
        obtain ⟨qs, hq⟩ := parse_toStr_params url u hp
          (setParam (setParam u.params (js "wid") (js (toString w))) (js "fit")
            (js "constrain"))
          (setParam_ne_nil _ _ _)
        simp only [smartUrlSizing, hp, hm, hi, Bool.not_true, Bool.false_eq_true,
          if_false, if_true]
        simp only [photoKeyFromUrl, hq, hp]
      | false =>
        cases hd : hasSub u.pathname (js "/content/dam/marriott-renditions/") with
        | true =>
          obtain ⟨qs, hq⟩ := parse_toStr_params url u hp
            (setParam
              (setParam
                (setParam u.params (js "downsize") (js (toString w) ++ js "px:*"))
                (js "output-quality") (js "86"))
              (js "interpolation") (js "progressive-bilinear"))
            (setParam_ne_nil _ _ _)
          simp only [smartUrlSizing, hp, hm, hi, hd, Bool.not_true, Bool.false_eq_true,
            if_false, if_true]
          simp only [photoKeyFromUrl, hq, hp]
        | false => simp [smartUrlSizing, hp, hm, hi, hd]

/-- Claim C10.  The URL sizing functions of the two page variants are
extensionally equal: `smartUrlSizing` (named variant) and
`withMarriottSizing` (unnamed variant) return the same string on every
input URL and width. -/
theorem C10_sizing_functions_agree (url : JSString) (w : Nat) :
    smartUrlSizing url w = withMarriottSizing url w := by
  cases hp : URLModel.parse url with
  | none => simp [smartUrlSizing, withMarriottSizing, hp]
  | some u =>
    cases hm : hasSub u.host (js "cache.marriott.com") with
    | false => simp [smartUrlSizing, withMarriottSizing, hp, hm]
    | true =>
      cases hi : hasSub u.pathname (js "/is/image/") with
      | true => simp [smartUrlSizing, withMarriottSizing, hp, hm, hi]
      | false =>
        cases hd : hasSub u.pathname (js "/content/dam/marriott-renditions/") with
        | true => simp [smartUrlSizing, withMarriottSizing, hp, hm, hi, hd]
        | false => simp [smartUrlSizing, withMarriottSizing, hp, hm, hi, hd]

theorem pushDedup_ne_nil (acc : List JSString) (u : JSString) (hu : u ≠ []) :
    pushDedup acc u ≠ [] := by
  unfold pushDedup
  split
  · rename_i hc
    rcases hc with hc | hc
    · exact absurd hc hu
    · exact List.ne_nil_of_mem hc
  · simp

theorem mem_pushDedup_self (acc : List JSString) (u : JSString) (hu : u ≠ []) :
    u ∈ pushDedup acc u := by
  unfold pushDedup
  split
  · rename_i hc
    rcases hc with hc | hc
    · exact absurd hc hu
    · exact hc
  · simp

theorem mem_pushDedup (acc : List JSString) (u x : JSString)
    (hx : x ∈ pushDedup acc u) : x ∈ acc ∨ x = u := by
  unfold pushDedup at hx
  split at hx
  · exact Or.inl hx
  · simpa using hx

theorem getLast_pushDedup (acc : List JSString) (u : JSString) (hu : u ≠ [])
    (hn : u ∉ acc) : (pushDedup acc u).getLast? = some u := by
  unfold pushDedup
  rw [if_neg (by simp [hu, hn])]
  simp

/-- Claim C1, counterexample.  The claim asserts that `expandSources`
returns a non-empty sequence ending in the original input for EVERY
input string; but on the empty string the `push` helper
(`const push = (u) => u && s.add(u)`) skips the falsy value, so
`expandSources("")` is the empty sequence — it has no last element at
all. -/
theorem C1_counterexample_empty_string : expandSources (js "") = [] := by decide

/-- Claim C1, amended.  For every NON-EMPTY input string (valid or
malformed as a URL), `expandSources url` is non-empty and contains
`url`; its last element is `url` itself unless `url` coincides with one
of its five generated size variants (e.g. a URL that already carries the
exact rewritten sizing parameters), in which case the earlier duplicate
keeps its position in the insertion-ordered set. -/
theorem C1_expand_fallback_amended (url : JSString) (hurl : url ≠ []) :
    expandSources url ≠ [] ∧ url ∈ expandSources url ∧
      ((expandSources url).getLast? = some url ∨
        sizingWidths.any (fun w => smartUrlSizing url w == url) = true) := by
  refine ⟨pushDedup_ne_nil _ _ hurl, mem_pushDedup_self _ _ hurl, ?_⟩
  by_cases hin :
      url ∈ pushDedup (pushDedup (pushDedup (pushDedup (pushDedup []
        (smartUrlSizing url 2200)) (smartUrlSizing url 1800))
        (smartUrlSizing url 1400)) (smartUrlSizing url 1100))
        (smartUrlSizing url 900)
  · right
    simp only [sizingWidths, List.any_cons, List.any_nil, Bool.or_eq_true, beq_iff_eq]
    rcases mem_pushDedup _ _ _ hin with h4 | heq
    · rcases mem_pushDedup _ _ _ h4 with h3 | heq
      · rcases mem_pushDedup _ _ _ h3 with h2 | heq
        · rcases mem_pushDedup _ _ _ h2 with h1 | heq
          · rcases mem_pushDedup _ _ _ h1 with h0 | heq
            · simp at h0
            · exact Or.inl heq.symm
          · exact Or.inr (Or.inl heq.symm)
        · exact Or.inr (Or.inr (Or.inl heq.symm))
      · exact Or.inr (Or.inr (Or.inr (Or.inl heq.symm)))
    · exact Or.inr (Or.inr (Or.inr (Or.inr (Or.inl heq.symm))))
  · left
    exact getLast_pushDedup _ _ hurl hin

/-- Witness for the amended claim C1 at a concrete malformed-as-URL
input: `expandSources "hello"` is non-empty, contains `"hello"`, and
ends with it. -/
theorem C1_expand_fallback_amended_witness :
    expandSources (js "hello") ≠ [] ∧ js "hello" ∈ expandSources (js "hello") ∧
      ((expandSources (js "hello")).getLast? = some (js "hello") ∨
        sizingWidths.any (fun w => smartUrlSizing (js "hello") w == js "hello") = true) :=
  C1_expand_fallback_amended (js "hello") (by decide)

/-- Claim C4, counterexample.  The claim's example URL uses the host
`cache.example.com`, but the code's recognized image-service convention
tests `hostname.includes("cache.marriott.com")`; on that host nothing is
rewritten and `expandSources` yields exactly one candidate, not ≥ 2. -/
theorem C4_counterexample_example_host :
    expandSources (js "https://cache.example.com/is/image/prod/photo-123:Wide-Hor") =
      [js "https://cache.example.com/is/image/prod/photo-123:Wide-Hor"] := by decide

/-- Claim C4, amended.  On the host the code actually recognizes
(`cache.marriott.com`), the scenario holds: the expansion yields six
candidates — five rewritten-width variants followed by the untouched
input as last element — so ≥ 2 candidates, the last exactly equal to the
input, and every earlier one carrying a rewritten `wid=` width
parameter. -/
theorem C4_expand_recognized_host_amended :
    expandSources (js "https://cache.marriott.com/is/image/prod/photo-123:Wide-Hor") =
      [js "https://cache.marriott.com/is/image/prod/photo-123:Wide-Hor?wid=2200&fit=constrain",
       js "https://cache.marriott.com/is/image/prod/photo-123:Wide-Hor?wid=1800&fit=constrain",
       js "https://cache.marriott.com/is/image/prod/photo-123:Wide-Hor?wid=1400&fit=constrain",
       js "https://cache.marriott.com/is/image/prod/photo-123:Wide-Hor?wid=1100&fit=constrain",
       js "https://cache.marriott.com/is/image/prod/photo-123:Wide-Hor?wid=900&fit=constrain",
       js "https://cache.marriott.com/is/image/prod/photo-123:Wide-Hor"] ∧
    2 ≤ (expandSources
      (js "https://cache.marriott.com/is/image/prod/photo-123:Wide-Hor")).length ∧
    (expandSources
      (js "https://cache.marriott.com/is/image/prod/photo-123:Wide-Hor")).getLast? =
      some (js "https://cache.marriott.com/is/image/prod/photo-123:Wide-Hor") ∧
    ((expandSources
      (js "https://cache.marriott.com/is/image/prod/photo-123:Wide-Hor")).dropLast.all
        (fun v => hasSub v (js "wid="))) = true := by decide

theorem dedupPhotos_sublist (seen : List JSString) (l : List Photo) :
    (dedupPhotos seen l).Sublist l := by
  induction l generalizing seen with
  | nil => simp [dedupPhotos]
  | cons b rest ih =>
    simp only [dedupPhotos]
    split
    · exact (ih seen).cons b
    · exact (ih _).cons₂ b

theorem dedupPhotos_key_spec (l : List Photo) (seen : List JSString) :
    ∀ p ∈ dedupPhotos seen l, keyOfPhoto p ≠ [] ∧ keyOfPhoto p ∉ seen ∧
      l.find? (fun q => keyOfPhoto q == keyOfPhoto p) = some p := by
  induction l generalizing seen with
  | nil => simp [dedupPhotos]
  | cons b rest ih =>
    intro p hp
    simp only [dedupPhotos] at hp
    split at hp
    · rename_i hb
      obtain ⟨hne, hns, hfind⟩ := ih seen p hp
      refine ⟨hne, hns, ?_⟩
      rw [List.find?_cons_of_neg, hfind]
      simp only [beq_iff_eq]
      intro hkey
      rcases hb with hb | hb
      · exact hne (hkey ▸ hb)
      · exact hns (hkey ▸ hb)
    · rename_i hb
      push_neg at hb
      rcases List.mem_cons.mp hp with rfl | hp
      · exact ⟨hb.1, hb.2, by rw [List.find?_cons_of_pos] ; simp⟩
      · obtain ⟨hne, hns, hfind⟩ := ih (keyOfPhoto b :: seen) p hp
        simp only [List.mem_cons, not_or] at hns
        refine ⟨hne, hns.2, ?_⟩
        rw [List.find?_cons_of_neg, hfind]
        simp only [beq_iff_eq]
        exact fun hkey => hns.1 hkey.symm

theorem dedupPhotos_keys_nodup (l : List Photo) (seen : List JSString) :
    ((dedupPhotos seen l).map keyOfPhoto).Nodup ∧
      ∀ p ∈ dedupPhotos seen l, keyOfPhoto p ∉ seen := by
  induction l generalizing seen with
  | nil => simp [dedupPhotos]
  | cons b rest ih =>
    simp only [dedupPhotos]
    split
    · exact ih seen
    · rename_i hb
      push_neg at hb
      constructor
      · simp only [List.map_cons, List.nodup_cons]
        constructor
        · intro hmem
          obtain ⟨p, hp, hkey⟩ := List.mem_map.mp hmem
          have := (ih (keyOfPhoto b :: seen)).2 p hp
          simp only [List.mem_cons, not_or] at this
          exact this.1 hkey
        · exact (ih (keyOfPhoto b :: seen)).1
      · intro p hp
        rcases List.mem_cons.mp hp with rfl | hp
        · exact hb.2
        · have := (ih (keyOfPhoto b :: seen)).2 p hp
          simp only [List.mem_cons, not_or] at this
          exact this.2

theorem dedupPhotos_complete (l : List Photo) (seen : List JSString) :
    ∀ q ∈ l, keyOfPhoto q ≠ [] → keyOfPhoto q ∉ seen →
      ∃ p ∈ dedupPhotos seen l, keyOfPhoto p = keyOfPhoto q := by
  induction l generalizing seen with
  | nil => simp
  | cons b rest ih =>
    intro q hq hne hns
    simp only [dedupPhotos]
    split
    · rename_i hb
      rcases List.mem_cons.mp hq with rfl | hq
      · rcases hb with hb | hb
        · exact absurd hb hne
        · exact absurd hb hns
      · exact ih seen q hq hne hns
    · rename_i hb
      rcases List.mem_cons.mp hq with rfl | hq
      · exact ⟨q, List.mem_cons_self _ _, rfl⟩
      · by_cases hkey : keyOfPhoto q = keyOfPhoto b
        · exact ⟨b, List.mem_cons_self _ _, hkey.symm⟩
        · obtain ⟨p, hp, hpk⟩ := ih (keyOfPhoto b :: seen) q hq hne
            (by simp [hkey, hns])
          exact ⟨p, List.mem_cons_of_mem _ hp, hpk⟩

/-- Claim C2.  The catalog builder deduplicates by normalized key:
its output is a sublist of the built records (first-occurrence order
preserved), every kept photo has a non-empty key, no two kept photos
share a key, every kept photo is the FIRST built record bearing its key,
and every built record with a non-empty key is represented.  In
particular, of two records whose canonical URLs normalize to the same
key only the earlier one survives. -/
theorem C2_catalog_dedup (rs : List PhotoRecord) :
    (photosFn rs).Sublist (rs.map buildPhoto) ∧
    (∀ p ∈ photosFn rs, keyOfPhoto p ≠ []) ∧
    ((photosFn rs).map keyOfPhoto).Nodup ∧
    (∀ p ∈ photosFn rs,
      (rs.map buildPhoto).find? (fun q => keyOfPhoto q == keyOfPhoto p) = some p) ∧
    (∀ q ∈ rs.map buildPhoto, keyOfPhoto q ≠ [] →
      ∃ p ∈ photosFn rs, keyOfPhoto p = keyOfPhoto q) := by
  unfold photosFn
  refine ⟨dedupPhotos_sublist [] _, ?_, (dedupPhotos_keys_nodup _ []).1, ?_, ?_⟩
  · exact fun p hp => (dedupPhotos_key_spec _ [] p hp).1
  · exact fun p hp => (dedupPhotos_key_spec _ [] p hp).2.2
  · exact fun q hq hne => dedupPhotos_complete _ [] q hq hne (by simp)

/-- Witness for claim C2: two records whose canonical URLs differ only
in the image-service suffix after `:` normalize to the same key
(`asset-1`), and the catalog keeps exactly the first of them — the first
built record is the `find?` result for that key. -/
theorem C2_catalog_dedup_witness :
    (([⟨js "a", js "A", none,
          js "https://cache.marriott.com/is/image/prod/asset-1:Wide"⟩,
        ⟨js "b", js "B", none,
          js "https://cache.marriott.com/is/image/prod/asset-1:Square"⟩] :
        List PhotoRecord).map buildPhoto).find?
      (fun q => keyOfPhoto q ==
        keyOfPhoto (buildPhoto ⟨js "a", js "A", none,
          js "https://cache.marriott.com/is/image/prod/asset-1:Wide"⟩)) =
      some (buildPhoto ⟨js "a", js "A", none,
        js "https://cache.marriott.com/is/image/prod/asset-1:Wide"⟩) :=
  (C2_catalog_dedup
    [⟨js "a", js "A", none, js "https://cache.marriott.com/is/image/prod/asset-1:Wide"⟩,
     ⟨js "b", js "B", none,
        js "https://cache.marriott.com/is/image/prod/asset-1:Square"⟩]).2.2.2.1
    (buildPhoto ⟨js "a", js "A", none,
      js "https://cache.marriott.com/is/image/prod/asset-1:Wide"⟩)
    (by decide)

/-- Claim C5.  The `SmartImage` failure cursor never decreases, stays
bounded by `sources.length` from any in-range state (hence from its
initial value 0 under any sequence of failure events), and the
placeholder state `sourceIndex = sources.length` is terminal: every
further failure event leaves it unchanged. -/
theorem C5_smartImage_cursor (sources : List JSString) (i k : Nat) :
    i ≤ smartImageOnError sources i ∧
    (i ≤ sources.length → smartImageOnError sources i ≤ sources.length) ∧
    ((smartImageOnError sources)^[k] 0 ≤ sources.length) ∧
    ((smartImageOnError sources)^[k] sources.length = sources.length) := by
  have hmono : ∀ v, v ≤ smartImageOnError sources v := by
    intro v
    unfold smartImageOnError
    split <;> omega
  have hbound : ∀ v, v ≤ sources.length → smartImageOnError sources v ≤ sources.length := by
    intro v hv
    unfold smartImageOnError
    split <;> omega
  have hfix : smartImageOnError sources sources.length = sources.length := by
    unfold smartImageOnError
    split <;> omega
  refine ⟨hmono i, hbound i, ?_, ?_⟩
  · induction k with
    | zero => simp
    | succ k ih =>
      rw [Function.iterate_succ_apply']
      exact hbound _ ih
  · induction k with
    | zero => simp
    | succ k ih =>
      rw [Function.iterate_succ_apply', ih]
      exact hfix

/-- Witness for claim C5 at `sources = ["bad1", "bad2"]`, cursor 1,
three failure events. -/
theorem C5_smartImage_cursor_witness :
    1 ≤ smartImageOnError [js "bad1", js "bad2"] 1 ∧
    smartImageOnError [js "bad1", js "bad2"] 1 ≤ 2 ∧
    ((smartImageOnError [js "bad1", js "bad2"])^[3] 0 ≤ 2) ∧
    ((smartImageOnError [js "bad1", js "bad2"])^[3] 2 = 2) := by
  obtain ⟨h1, h2, h3, h4⟩ := C5_smartImage_cursor [js "bad1", js "bad2"] 1 3
  exact ⟨h1, h2 (by decide), h3, h4⟩

theorem emod_absorb_left (n a b : Int) : (a % n + b) % n = (a + b) % n := by
  conv_lhs => rw [Int.add_emod]
  conv_rhs => rw [Int.add_emod]
  simp [Int.emod_emod_of_dvd]

theorem nextIdx_iterate (n : Int) (hn : 0 < n) (k : Nat) (i : Int) (h0 : 0 ≤ i)
    (hi : i < n) : (nextIdx n)^[k] i = (i + k) % n := by
  induction k with
  | zero => simpa using (Int.emod_eq_of_lt h0 hi).symm
  | succ k ih =>
    rw [Function.iterate_succ_apply', ih]
    unfold nextIdx
    rw [emod_absorb_left]
    congr 1
    push_cast
    ring

/-- Claim C6.  Cyclic lightbox navigation on a visible slice of size
`n ≥ 1`: `next` maps `i` to `(i + 1) % n` and `prev` to
`(i - 1 + n) % n`; both stay inside `[0, n)`; `prev` and `next` are
mutually inverse; `next` applied `n` times returns to the start; and for
`n = 1` both are no-ops. -/
theorem C6_lightbox_cyclic_navigation (n i : Int) (hn : 1 ≤ n) (h0 : 0 ≤ i)
    (hi : i < n) :
    nextIdx n i = (i + 1) % n ∧ prevIdx n i = (i - 1 + n) % n ∧
    (0 ≤ nextIdx n i ∧ nextIdx n i < n) ∧
    (0 ≤ prevIdx n i ∧ prevIdx n i < n) ∧
    prevIdx n (nextIdx n i) = i ∧ nextIdx n (prevIdx n i) = i ∧
    (nextIdx n)^[n.toNat] i = i ∧
    (n = 1 → nextIdx n i = i ∧ prevIdx n i = i) := by
  have hn0 : (0 : Int) < n := by omega
  have hne : n ≠ 0 := by omega
  have hnext : nextIdx n i = (i + 1) % n := rfl
  have hprev : prevIdx n i = (i - 1 + n) % n := rfl
  have hnb : 0 ≤ nextIdx n i ∧ nextIdx n i < n :=
    ⟨Int.emod_nonneg _ hne, Int.emod_lt_of_pos _ hn0⟩
  have hpb : 0 ≤ prevIdx n i ∧ prevIdx n i < n :=
    ⟨Int.emod_nonneg _ hne, Int.emod_lt_of_pos _ hn0⟩
  have hiter : (nextIdx n)^[n.toNat] i = i := by
    rw [nextIdx_iterate n hn0 n.toNat i h0 hi]
    rw [Int.toNat_of_nonneg (by omega : (0 : Int) ≤ n)]
    rw [show i + n = i + n * 1 by ring, Int.add_mul_emod_self_left]
    exact Int.emod_eq_of_lt h0 hi
  have hpn : prevIdx n (nextIdx n i) = i := by
    unfold prevIdx nextIdx
    rw [show (i + 1) % n - 1 + n = (i + 1) % n + (n - 1) by ring, emod_absorb_left]
    rw [show i + 1 + (n - 1) = i + n * 1 by ring, Int.add_mul_emod_self_left]
    exact Int.emod_eq_of_lt h0 hi
  have hnp : nextIdx n (prevIdx n i) = i := by
    unfold prevIdx nextIdx
    rw [emod_absorb_left]
    rw [show i - 1 + n + 1 = i + n * 1 by ring, Int.add_mul_emod_self_left]
    exact Int.emod_eq_of_lt h0 hi
  refine ⟨hnext, hprev, hnb, hpb, hpn, hnp, hiter, ?_⟩
  intro h1
  subst h1
  constructor <;> omega

/-- Witness for claim C6 at `n = 5`, `i = 0` (Scenario D: `prev` from
index 0 of a 5-item slice wraps to index 4). -/
theorem C6_lightbox_cyclic_navigation_witness :
    nextIdx 5 0 = (0 + 1) % 5 ∧ prevIdx 5 0 = (0 - 1 + 5) % 5 ∧
    (0 ≤ nextIdx 5 0 ∧ nextIdx 5 0 < 5) ∧
    (0 ≤ prevIdx 5 0 ∧ prevIdx 5 0 < 5) ∧
    prevIdx 5 (nextIdx 5 0) = 0 ∧ nextIdx 5 (prevIdx 5 0) = 0 ∧
    (nextIdx 5)^[(5 : Int).toNat] 0 = 0 ∧
    ((5 : Int) = 1 → nextIdx 5 0 = 0 ∧ prevIdx 5 0 = 0) :=
  C6_lightbox_cyclic_navigation 5 0 (by decide) (by decide) (by decide)

/-- Claim C7.  Gallery paging: every transition is monotone in
`visibleCount` (for any catalog; in particular the guarded `loadMore`,
which sets `visibleCount := min(visibleCount + 12, catalogLength)` and
is only offered while `visibleCount < catalogLength`, never decreases
it), and in every reachable state of the page's actual catalog
(`theCatalog`, 12 photos) `visibleCount` never exceeds
`theCatalog.length`. -/
theorem C7_loadMore_monotone_bounded :
    (∀ (cl : Nat) (s s' : GalleryState), GalleryStep cl s s' →
      s.visibleCount ≤ s'.visibleCount) ∧
    (∀ s : GalleryState, GalleryReachable theCatalog.length s →
      s.visibleCount ≤ theCatalog.length) := by
  have hlen : theCatalog.length = 12 := by decide
  constructor
  · intro cl s s' hstep
    cases hstep with
    | loadMore h =>
      rename_i vc lb
      show vc ≤ min (vc + 12) cl
      omega
    | openLB i hi => exact le_refl _
    | closeLB => exact le_refl _
    | prevLB => exact le_refl _
    | nextLB => exact le_refl _
  · intro s hr
    induction hr with
    | init =>
      show 12 ≤ theCatalog.length
      omega
    | step hr hstep ih =>
      cases hstep with
      | loadMore h => exact min_le_right _ _
      | openLB i hi => exact ih
      | closeLB => exact ih
      | prevLB => exact ih
      | nextLB => exact ih

/-- Witness for claim C7: a concrete close transition is monotone, and
the initial state's 12 visible photos do not exceed the catalog's
length. -/
theorem C7_loadMore_monotone_bounded_witness :
    (⟨12, some 0⟩ : GalleryState).visibleCount ≤
      (⟨12, none⟩ : GalleryState).visibleCount ∧
    (⟨12, none⟩ : GalleryState).visibleCount ≤ theCatalog.length :=
  ⟨C7_loadMore_monotone_bounded.1 20 ⟨12, some 0⟩ ⟨12, none⟩ GalleryStep.closeLB,
   C7_loadMore_monotone_bounded.2 ⟨12, none⟩ GalleryReachable.init⟩

/-- Claim C8.  In every reachable gallery state with an open lightbox,
the lightbox index is a valid index into the currently visible slice
(`0 ≤ i < min(visibleCount, catalogLength)`), and this is preserved by
every transition: open-from-thumbnail, prev, next, close, and a
`loadMore` that grows `visibleCount`. -/
theorem C8_lightbox_index_in_visible_slice (catLen : Nat) (s : GalleryState)
    (hr : GalleryReachable catLen s) (i : Int) (hl : s.lightbox = some i) :
    0 ≤ i ∧ i < (visibleLen catLen s.visibleCount : Int) := by
  induction hr generalizing i with
  | init => simp at hl
  | step hr hstep ih =>
    cases hstep with
    | loadMore h =>
      rename_i vc lb
      obtain ⟨h0, hlt⟩ := ih i hl
      refine ⟨h0, ?_⟩
      have hlt' : i < (visibleLen catLen vc : Int) := hlt
      show i < (visibleLen catLen (min (vc + 12) catLen) : Int)
      simp only [visibleLen] at hlt' ⊢
      omega
    | openLB j hj =>
      simp only [GalleryState.lightbox, Option.some.injEq] at hl
      subst hl
      exact ⟨Int.ofNat_nonneg j, by exact_mod_cast hj⟩
    | closeLB => simp at hl
    | prevLB =>
      rename_i vc j
      obtain ⟨h0, hlt⟩ := ih j rfl
      have hlt' : j < (visibleLen catLen vc : Int) := hlt
      simp only [GalleryState.lightbox, Option.some.injEq] at hl
      subst hl
      have hn0 : (0 : Int) < (visibleLen catLen vc : Int) := by omega
      exact ⟨Int.emod_nonneg _ (by omega), Int.emod_lt_of_pos _ hn0⟩
    | nextLB =>
      rename_i vc j
      obtain ⟨h0, hlt⟩ := ih j rfl
      have hlt' : j < (visibleLen catLen vc : Int) := hlt
      simp only [GalleryState.lightbox, Option.some.injEq] at hl
      subst hl
      have hn0 : (0 : Int) < (visibleLen catLen vc : Int) := by omega
      exact ⟨Int.emod_nonneg _ (by omega), Int.emod_lt_of_pos _ hn0⟩

/-- Witness for claim C8: opening the lightbox at index 0 from the
initial state of a 12-photo catalog yields a valid index. -/
theorem C8_lightbox_index_in_visible_slice_witness :
    (0 : Int) ≤ 0 ∧
      (0 : Int) < (visibleLen 12 (⟨12, some 0⟩ : GalleryState).visibleCount : Int) :=
  C8_lightbox_index_in_visible_slice 12 ⟨12, some 0⟩
    (GalleryReachable.step GalleryReachable.init
      (GalleryStep.openLB 0 (by decide))) 0 rfl

/-- Claim C9.  The persisted language preference under the fixed key
`"wedding_lang"`: at startup a stored `"en"`/`"fa"` becomes the
language, anything else (absent, invalid, or a thrown storage read)
defaults to `"en"`; a language change writes the new value back under
the same key; a thrown storage write is swallowed, leaving both the
store and the in-session language unchanged with no surfaced error (all
effects are total functions — there is no error channel). -/
theorem C9_language_preference (st : StorageState) (l : Lang) (sv : JSString) :
    (st.broken = true → initLangEffect st = .en) ∧
    (st.broken = false → st.entries.lookup weddingLangKey = none →
      initLangEffect st = .en) ∧
    (st.broken = false → st.entries.lookup weddingLangKey = some sv →
      sv ≠ js "en" → sv ≠ js "fa" → initLangEffect st = .en) ∧
    (st.broken = false → st.entries.lookup weddingLangKey = some (js "en") →
      initLangEffect st = .en) ∧
    (st.broken = false → st.entries.lookup weddingLangKey = some (js "fa") →
      initLangEffect st = .fa) ∧
    ((persistLangEffect st l).2 = l) ∧
    (st.broken = false →
      (persistLangEffect st l).1.entries.lookup weddingLangKey = some (langCode l)) ∧
    (st.broken = true → persistLangEffect st l = (st, l)) ∧
    (st.broken = false → initLangEffect (persistLangEffect st l).1 = l) := by
  obtain ⟨entries, broken⟩ := st
  cases broken with
  | true =>
    refine ⟨fun _ => ?_, by simp, by simp, by simp, by simp, ?_, by simp, fun _ => ?_, by simp⟩
    · simp [initLangEffect, getItem]
    · simp [persistLangEffect, setItem]
    · simp [persistLangEffect, setItem]
  | false =>
    have hset : persistLangEffect ⟨entries, false⟩ l =
        (⟨(weddingLangKey, langCode l) :: entries.filter
            (fun p => !(p.1 == weddingLangKey)), false⟩, l) := by
      simp [persistLangEffect, setItem]
    refine ⟨by simp, fun _ hl => ?_, fun _ hl hne hnf => ?_, fun _ hl => ?_,
      fun _ hl => ?_, ?_, fun _ => ?_, by simp, fun _ => ?_⟩
    · simp [initLangEffect, getItem, hl]
    · simp only [initLangEffect, getItem, if_neg Bool.false_ne_true]
      simp only [StorageState.entries] at hl
      rw [hl]
      simp [hne, hnf]
    · simp only [initLangEffect, getItem, if_neg Bool.false_ne_true]
      simp only [StorageState.entries] at hl
      rw [hl]
      simp [js]
    · simp only [initLangEffect, getItem, if_neg Bool.false_ne_true]
      simp only [StorageState.entries] at hl
      rw [hl]
      simp [js]
    · simp [persistLangEffect, setItem]
    · rw [hset]
      simp [List.lookup]
    · rw [hset]
      cases l with
      | en => simp [initLangEffect, getItem, List.lookup, langCode, js]
      | fa => simp [initLangEffect, getItem, List.lookup, langCode, js]

/-- Witness for claim C9: starting from an empty working store, toggling
to Persian persists `"fa"` under `"wedding_lang"`, leaves the in-session
language at Persian, and a simulated reload restores Persian
(Scenario E). -/
theorem C9_language_preference_witness :
    (persistLangEffect ⟨[], false⟩ Lang.fa).2 = Lang.fa ∧
    (persistLangEffect ⟨[], false⟩ Lang.fa).1.entries.lookup weddingLangKey =
      some (langCode Lang.fa) ∧
    initLangEffect (persistLangEffect ⟨[], false⟩ Lang.fa).1 = Lang.fa := by
  obtain ⟨-, -, -, -, -, h6, h7, -, h9⟩ :=
    C9_language_preference ⟨[], false⟩ Lang.fa (js "xx")
  exact ⟨h6, h7 rfl, h9 rfl⟩
